import Mathlib

/-!
Verification of the LL2LO CV-extraction pipeline.

This file gives a shallow embedding, in Lean 4, of the algorithmic core of
the LL2LO repository (a TypeScript application that splits multi-CV PDFs,
extracts structured candidate data through an LLM provider, and renders
slides), together with theorems settling the frozen specification claims.

Embedding conventions:
* TypeScript strings are Lean `String`s (a wrapper around `List Char`);
  where convenient the character list is manipulated directly.
* A possibly-absent (`undefined`) field is an `Option`.
* JavaScript truthiness on a string-valued field (`if (x)`) is
  `truthy : Option String → Bool` (absent and `""` are falsy).
* JavaScript numbers used as timestamps/durations are `Nat`; the pdf.js
  vertical coordinate is modelled as `Int` (only exact comparisons with
  the constants `-1` and `2` occur in the source).
* Asynchronous code (the rate-limiter drain loop, retry/backoff) is
  modelled as an explicit timed recursion: wall-clock instants are `Nat`
  and each queued closure carries its observed duration.

Each definition is translated from the TypeScript source; definitions
whose names start with `spec` instead transcribe a sentence of the
natural-language specification, for comparison with the code.
-/

namespace LL2LO

/-! ### JavaScript string primitives -/

/-- The ASCII whitespace test used throughout: models the membership test
of JavaScript `\s` restricted to the ASCII range that the pipeline's data
actually contains (space, tab, CR, LF). -/
def isWsB (c : Char) : Bool := c.isWhitespace

/-- `String.prototype.trim` on the character list: drop leading and
trailing whitespace. -/
def jsTrimL (l : List Char) : List Char :=
  ((l.dropWhile isWsB).reverse.dropWhile isWsB).reverse

/-- `String.prototype.trim`. -/
def jsTrim (s : String) : String := ⟨jsTrimL s.data⟩

/-- `String.prototype.toLowerCase` (ASCII fragment). -/
def jsToLower (s : String) : String := ⟨s.data.map Char.toLower⟩

/-- JavaScript truthiness of a possibly-absent string field:
`undefined` and `""` are falsy, every other string is truthy. -/
def truthy : Option String → Bool
  | none => false
  | some s => s != ""

/-- `pat` is a prefix of the second list (executable helper for
substring containment). -/
def isPrefixB : List Char → List Char → Bool
  | [], _ => true
  | _ :: _, [] => false
  | p :: ps, c :: cs => p == c && isPrefixB ps cs

/-- `pat` occurs as a contiguous substring of the second list. -/
def containsSub (pat : List Char) : List Char → Bool
  | [] => isPrefixB pat []
  | c :: rest => isPrefixB pat (c :: rest) || containsSub pat rest

/-- `String.prototype.includes sub` : substring containment. -/
def jsIncludes (s sub : String) : Bool := containsSub sub.data s.data

/-! ### Data model (src/types.ts) -/

/-- `WorkExperience` from `types.ts`: `{company, jobTitle, dates?}`. -/
structure WorkExperience where
  company : String
  jobTitle : String
  dates : Option String
deriving DecidableEq, Repr

/-- `Education` from `types.ts`: `{institution, degree, dates?}`. -/
structure Education where
  institution : String
  degree : String
  dates : Option String
deriving DecidableEq, Repr

/-- An untyped (`any`) work-history item as consumed by
`AIService.cleanWorkHistory`: every field may be absent. -/
structure RawWork where
  company : Option String
  jobTitle : Option String
  dates : Option String
deriving DecidableEq, Repr

/-- An untyped (`any`) education item as consumed by
`AIService.cleanEducation`. -/
structure RawEducation where
  institution : Option String
  degree : Option String
  dates : Option String
deriving DecidableEq, Repr

/-- `CandidateData` from `types.ts` (the `rawText` debugging field is
not relevant to any claim and is omitted). -/
structure CandidateData where
  name : String
  workHistory : List WorkExperience
  education : List Education
deriving DecidableEq, Repr

/-! ### AIService cleaning steps (src/services/aiService.ts) -/

/-- The `map` body of `AIService.cleanWorkHistory`: trim company and
job title; `item.dates ? String(item.dates).trim() : undefined`. -/
def cleanWorkItem (item : RawWork) : WorkExperience :=
  { company := jsTrim (item.company.getD "")
    jobTitle := jsTrim (item.jobTitle.getD "")
    dates := if truthy item.dates then some (jsTrim (item.dates.getD "")) else none }

/-- `AIService.cleanWorkHistory`: keep items whose `company` and
`jobTitle` are truthy, slice to the first 5, trim all string fields. -/
def cleanWorkHistory (workHistory : List RawWork) : List WorkExperience :=
  ((workHistory.filter fun item => truthy item.company && truthy item.jobTitle).take 5).map
    cleanWorkItem

/-- `AIService.cleanEducation`: keep items whose `institution` AND
`degree` are truthy (the `&& item.degree` conjunct is what drops
degree-less entries), trim all string fields. -/
def cleanEducation (education : List RawEducation) : List Education :=
  (education.filter fun item => truthy item.institution && truthy item.degree).map
    fun item =>
      { institution := jsTrim (item.institution.getD "")
        degree := jsTrim (item.degree.getD "")
        dates := if truthy item.dates then some (jsTrim (item.dates.getD "")) else none }

/-- The `boardKeywords` array of `AIService.filterBoardMemberRoles`. -/
def boardKeywords : List String :=
  ["board member", "board director", "advisory board", "board of directors",
   "non-executive director", "supervisory board", "board observer", "board advisor"]

/-- The per-entry test inside `AIService.filterBoardMemberRoles`:
lowercase the job title and look for any board keyword as a substring. -/
def isBoardTitle (title : String) : Bool :=
  boardKeywords.any fun keyword => jsIncludes (jsToLower title) keyword

/-- `AIService.filterBoardMemberRoles`: drop entries whose lowercased
job title contains a board keyword. -/
def filterBoardMemberRoles (workHistory : List WorkExperience) : List WorkExperience :=
  workHistory.filter fun experience => !(isBoardTitle experience.jobTitle)

/-- The composite work-history cleaning performed by
`AIService.performExtraction`: `cleanWorkHistory` then
`filterBoardMemberRoles`. -/
def cleanAndFilter (workHistory : List RawWork) : List WorkExperience :=
  filterBoardMemberRoles (cleanWorkHistory workHistory)

/-- Re-reading a cleaned `WorkExperience` object as an untyped item (this
is what happens if the clean step is applied to its own output: the
fields are all present). -/
def toRawWork (w : WorkExperience) : RawWork :=
  { company := some w.company, jobTitle := some w.jobTitle, dates := w.dates }

/-! ### Zod validation (src/services/aiService.ts, parseResponse) -/

/-- The parsed JSON payload handed to the Zod `CVDataSchema`: each field
may be absent, work and education items are untyped records. -/
structure RawCV where
  name : Option String
  workHistory : Option (List RawWork)
  education : Option (List RawEducation)
deriving DecidableEq, Repr

/-- `WorkExperienceSchema`: `company` and `jobTitle` are required strings
of length ≥ 1 (`z.string().min(1)`), `dates` is optional. -/
def validWorkItem (w : RawWork) : Bool :=
  (match w.company with
   | some s => decide (1 ≤ s.length)
   | none => false) &&
  (match w.jobTitle with
   | some s => decide (1 ≤ s.length)
   | none => false)

/-- `EducationSchema`: `institution` is a required string of length ≥ 1,
`degree` and `dates` are optional (`degree` carries the source comment
"Degree is optional - some people don't have education on LinkedIn"). -/
def validEducationItem (e : RawEducation) : Bool :=
  match e.institution with
  | some s => decide (1 ≤ s.length)
  | none => false

/-- `CVDataSchema.safeParse` success: `name` required nonempty,
`workHistory` a required array of valid items with `.max(5)`
("Maximum 5 work experiences"), `education` optional with every present
item valid. -/
def cvDataValid (cv : RawCV) : Bool :=
  (match cv.name with
   | some s => decide (1 ≤ s.length)
   | none => false) &&
  (match cv.workHistory with
   | some wh => wh.all validWorkItem && decide (wh.length ≤ 5)
   | none => false) &&
  (match cv.education with
   | some ed => ed.all validEducationItem
   | none => true)

/-- The post-response part of `AIService.performExtraction` applied to an
already-JSON-parsed payload: `parseResponse` validates against
`CVDataSchema` (throwing — modelled as `none` — when validation fails),
then the candidate record is built from the cleaned work history (with
the board filter applied) and cleaned education.  `extractedData.name ||
'Unknown'` is the JS truthiness fallback. -/
def performExtractionModel (cv : RawCV) : Option CandidateData :=
  if cvDataValid cv then
    some
      { name := if truthy cv.name then cv.name.getD "" else "Unknown"
        workHistory := cleanAndFilter (cv.workHistory.getD [])
        education := cleanEducation (cv.education.getD []) }
  else
    none

/-- The keep-test of `cleanWorkHistory`'s `.filter`, named for use in
statements: both `company` and `jobTitle` must be truthy. -/
def keepsWorkItem (item : RawWork) : Bool :=
  truthy item.company && truthy item.jobTitle

/-- Spec-side reading of the board filter: the job title, lowercased,
contains one of the eight keywords as a contiguous substring. -/
def specBoardTitle (t : String) : Prop :=
  ∃ k ∈ boardKeywords, k.data <:+: (jsToLower t).data

/-! ### Substring-scan and trim lemmas -/

theorem isPrefixB_iff (pat l : List Char) : isPrefixB pat l = true ↔ pat <+: l := by
  induction pat generalizing l with
  | nil => simp [isPrefixB]
  | cons p ps ih =>
    cases l with
    | nil => simp [isPrefixB]
    | cons c cs => simp [isPrefixB, Bool.and_eq_true, beq_iff_eq, List.cons_prefix_cons, ih]

theorem containsSub_iff (pat l : List Char) : containsSub pat l = true ↔ pat <:+: l := by
  induction l with
  | nil => simp [containsSub, isPrefixB_iff, List.infix_nil, List.prefix_nil]
  | cons c rest ih => simp [containsSub, isPrefixB_iff, ih, List.infix_cons_iff]

theorem isBoardTitle_iff (t : String) : isBoardTitle t = true ↔ specBoardTitle t := by
  simp [isBoardTitle, specBoardTitle, List.any_eq_true, jsIncludes, containsSub_iff]

theorem dropWhile_head_false (p : Char → Bool) (l : List Char) (c : Char)
    (h : (l.dropWhile p).head? = some c) : p c = false := by
  have hd := List.head?_dropWhile_not p l
  rw [h] at hd
  exact hd

theorem dropWhile_eq_self_of_head (p : Char → Bool) (l : List Char)
    (h : ∀ c, l.head? = some c → p c = false) : l.dropWhile p = l := by
  cases l with
  | nil => rfl
  | cons c rest => simp [List.dropWhile_cons, h c rfl]

theorem dropWhile_dropWhile (p : Char → Bool) (l : List Char) :
    (l.dropWhile p).dropWhile p = l.dropWhile p := by
  apply dropWhile_eq_self_of_head
  intro c hc
  exact dropWhile_head_false p l c hc

theorem getLast?_dropWhile (p : Char → Bool) (l : List Char)
    (h : l.dropWhile p ≠ []) : (l.dropWhile p).getLast? = l.getLast? := by
  induction l with
  | nil => simp [List.dropWhile] at h
  | cons c rest ih =>
    by_cases hc : p c
    · rw [List.dropWhile_cons] at h ⊢
      simp only [hc, if_true] at h ⊢
      have hrest : rest ≠ [] := by
        intro hr
        rw [hr] at h
        simp [List.dropWhile] at h
      cases rest with
      | nil => exact absurd rfl hrest
      | cons b bs => rw [ih h, List.getLast?_cons_cons]
    · simp [List.dropWhile_cons, hc]

theorem jsTrimL_idem (l : List Char) : jsTrimL (jsTrimL l) = jsTrimL l := by
  unfold jsTrimL
  have step1 :
      (((l.dropWhile isWsB).reverse.dropWhile isWsB).reverse).dropWhile isWsB =
        ((l.dropWhile isWsB).reverse.dropWhile isWsB).reverse := by
    apply dropWhile_eq_self_of_head
    intro c hc
    rw [List.head?_reverse] at hc
    have hne : (l.dropWhile isWsB).reverse.dropWhile isWsB ≠ [] := by
      intro hnil
      rw [hnil] at hc
      simp at hc
    rw [getLast?_dropWhile isWsB _ hne, List.getLast?_reverse] at hc
    exact dropWhile_head_false isWsB l c hc
  rw [step1, List.reverse_reverse, dropWhile_dropWhile]

theorem jsTrim_idem (s : String) : jsTrim (jsTrim s) = jsTrim s :=
  congrArg String.mk (jsTrimL_idem s.data)

/-! ### Claim C3: education entries with no degree
(`AIService.cleanEducation`, `EducationSchema`) -/

/-- C3 (code evaluation at the failing input): an education entry with an
institution but no degree is accepted by `EducationSchema` (degree is
optional there), yet `cleanEducation` drops it because its filter
requires `item.institution && item.degree`.  The claim (and the spec's
testable property) says the entry is retained with the degree absent. -/
theorem cleanEducation_drops_degreeless :
    validEducationItem ⟨some "MIT", none, none⟩ = true ∧
      cleanEducation [⟨some "MIT", none, none⟩] = [] := by
  constructor
  · decide
  · decide

/-! ### Claim C5: board-role filter -/

/-- C5: the client-side board filter removes exactly the work entries
whose lowercased job title contains one of the eight board keywords as a
substring (membership characterization), keeps every other entry in
order (sublist), and the match is case-insensitive: "BOARD MEMBER" is
excluded exactly as "Board Member" would be. -/
theorem board_filter_characterization :
    (∀ (wh : List WorkExperience) (e : WorkExperience),
        e ∈ filterBoardMemberRoles wh ↔ e ∈ wh ∧ ¬ specBoardTitle e.jobTitle) ∧
    (∀ wh : List WorkExperience, List.Sublist (filterBoardMemberRoles wh) wh) ∧
    isBoardTitle "BOARD MEMBER" = true ∧ isBoardTitle "Board Member" = true := by
  refine ⟨?_, ?_, by decide, by decide⟩
  · intro wh e
    rw [filterBoardMemberRoles, List.mem_filter]
    constructor
    · rintro ⟨hmem, hkeep⟩
      refine ⟨hmem, ?_⟩
      intro hspec
      rw [← isBoardTitle_iff] at hspec
      simp [hspec] at hkeep
    · rintro ⟨hmem, hspec⟩
      refine ⟨hmem, ?_⟩
      rw [← isBoardTitle_iff] at hspec
      simp [Bool.not_eq_true] at hspec ⊢
      exact hspec
  · intro wh
    exact List.filter_sublist wh

/-! ### Claim C4: work-history cleaning versus the schema cap -/

/-- C4 (counterexample): a model response whose work history has 6
entries, each individually valid for `WorkExperienceSchema`, makes the
pipeline throw (`CVDataSchema` has `.max(5)`, so `parseResponse` fails
validation before any cleaning runs) — it is not truncated to 5. -/
theorem six_entry_work_history_errors_counterexample :
    (List.replicate 6 (⟨some "Acme", some "CEO", none⟩ : RawWork)).all validWorkItem = true ∧
      performExtractionModel
        ⟨some "Jane Doe", some (List.replicate 6 ⟨some "Acme", some "CEO", none⟩), some []⟩ =
        none := by
  constructor
  · decide
  · decide

/-- C4 (amended): `cleanWorkHistory` itself drops entries whose company
or job title is not truthy, truncates to the first 5, and trims the kept
fields, and its output never exceeds 5 entries; however a response whose
work-history array has more than 5 entries is rejected by the Zod schema
validation with an error before cleaning, rather than truncated. -/
theorem work_history_clean_and_schema_cap :
    (∀ wh : List RawWork,
        cleanWorkHistory wh = ((wh.filter keepsWorkItem).take 5).map cleanWorkItem ∧
        (cleanWorkHistory wh).length ≤ 5) ∧
    (∀ (cv : RawCV) (wh : List RawWork), cv.workHistory = some wh → 5 < wh.length →
        performExtractionModel cv = none) := by
  constructor
  · intro wh
    refine ⟨rfl, ?_⟩
    rw [cleanWorkHistory, List.length_map, List.length_take]
    exact min_le_left 5 _
  · intro cv wh hwh hlen
    have h5 : ¬ (wh.length ≤ 5) := by omega
    simp [performExtractionModel, cvDataValid, hwh, decide_eq_false h5]

/-- C4 witness: a 7-entry work history is rejected by the pipeline. -/
theorem work_history_clean_and_schema_cap_witness :
    performExtractionModel
      ⟨some "A", some (List.replicate 7 ⟨some "B", some "C", none⟩), none⟩ = none :=
  work_history_clean_and_schema_cap.2 _ _ rfl (by decide)

/-! ### Claim C6: idempotence of the work-history cleaning -/

/-- A raw string field is "good" when, if it is truthy (so the entry
survives the filter), its trimmed value is still nonempty — i.e. the
field is not made entirely of whitespace. -/
def goodRaw (it : RawWork) : Prop :=
  (truthy it.company = true → jsTrim (it.company.getD "") ≠ "") ∧
  (truthy it.jobTitle = true → jsTrim (it.jobTitle.getD "") ≠ "") ∧
  (truthy it.dates = true → jsTrim (it.dates.getD "") ≠ "")

instance goodRawDecidable (it : RawWork) : Decidable (goodRaw it) := by
  unfold goodRaw
  infer_instance

/-- C6 (counterexample): on an entry whose company is a single space the
clean step is not idempotent: the first pass keeps the entry and trims
its company to `""`, the second pass then drops it (empty strings are
falsy), so re-running the clean step changes the output. -/
theorem work_clean_not_idempotent_counterexample :
    cleanAndFilter [⟨some " ", some "CEO", none⟩] = [⟨"", "CEO", none⟩] ∧
    cleanAndFilter ((cleanAndFilter [⟨some " ", some "CEO", none⟩]).map toRawWork) = [] ∧
    cleanAndFilter ((cleanAndFilter [⟨some " ", some "CEO", none⟩]).map toRawWork) ≠
      cleanAndFilter [⟨some " ", some "CEO", none⟩] := by
  refine ⟨by decide, by decide, by decide⟩

theorem cleanWorkItem_stable (it : RawWork) (hg : goodRaw it)
    (hk : keepsWorkItem it = true) :
    cleanWorkItem (toRawWork (cleanWorkItem it)) = cleanWorkItem it ∧
    keepsWorkItem (toRawWork (cleanWorkItem it)) = true := by
  obtain ⟨hgc, hgj, hgd⟩ := hg
  rw [keepsWorkItem, Bool.and_eq_true] at hk
  obtain ⟨hc, hj⟩ := hk
  have hc' : jsTrim (it.company.getD "") ≠ "" := hgc hc
  have hj' : jsTrim (it.jobTitle.getD "") ≠ "" := hgj hj
  constructor
  · cases hdates : it.dates with
    | none => simp [cleanWorkItem, toRawWork, truthy, hdates, jsTrim_idem]
    | some d =>
      by_cases hde : d = ""
      · subst hde
        simp [cleanWorkItem, toRawWork, truthy, hdates, jsTrim_idem]
      · have hd' : jsTrim d ≠ "" := by
          have := hgd (by simp [truthy, hdates, bne_iff_ne, hde])
          simpa [hdates] using this
        simp [cleanWorkItem, toRawWork, truthy, hdates, jsTrim_idem, bne_iff_ne, hde, hd']
  · simp [keepsWorkItem, toRawWork, cleanWorkItem, truthy, bne_iff_ne, hc', hj']

theorem mem_cleanAndFilter (raw : List RawWork) (w : WorkExperience)
    (hw : w ∈ cleanAndFilter raw) :
    (∃ it ∈ raw, keepsWorkItem it = true ∧ w = cleanWorkItem it) ∧
    isBoardTitle w.jobTitle = false := by
  rw [cleanAndFilter, filterBoardMemberRoles] at hw
  obtain ⟨hclean, hboard⟩ := List.mem_filter.mp hw
  refine ⟨?_, by simpa using hboard⟩
  rw [cleanWorkHistory] at hclean
  obtain ⟨it, hit, hmap⟩ := List.mem_map.mp hclean
  have hit5 : it ∈ raw.filter fun item => truthy item.company && truthy item.jobTitle :=
    (List.take_sublist 5 _).mem hit
  obtain ⟨hmem, hkeep⟩ := List.mem_filter.mp hit5
  exact ⟨it, hmem, hkeep, hmap.symm⟩

/-- C6 (amended): the composite work-history clean step (field-presence
filter, truncation to 5, trimming, board-keyword filter) is idempotent
on every input whose entries have no whitespace-only company, job-title
or dates field; and its output always has at most 5 entries, no entry
with an empty company or job title, and no board-keyword title.  (The
whitespace-only proviso is forced by the counterexample: trimming can
produce an empty — hence falsy — field that the second pass drops.) -/
theorem work_clean_idempotent_amended (raw : List RawWork)
    (h : ∀ it ∈ raw, goodRaw it) :
    cleanAndFilter ((cleanAndFilter raw).map toRawWork) = cleanAndFilter raw ∧
    (cleanAndFilter raw).length ≤ 5 ∧
    (∀ w ∈ cleanAndFilter raw,
        w.company ≠ "" ∧ w.jobTitle ≠ "" ∧ isBoardTitle w.jobTitle = false) := by
  have hlen5 : (cleanWorkHistory raw).length ≤ 5 := by
    rw [cleanWorkHistory, List.length_map, List.length_take]
    exact min_le_left 5 _
  have hlenCF : (cleanAndFilter raw).length ≤ 5 := by
    rw [cleanAndFilter, filterBoardMemberRoles]
    exact le_trans (List.length_filter_le _ _) hlen5
  have hpoint : ∀ w ∈ cleanAndFilter raw,
      cleanWorkItem (toRawWork w) = w ∧ keepsWorkItem (toRawWork w) = true ∧
      isBoardTitle w.jobTitle = false := by
    intro w hw
    obtain ⟨⟨it, hmem, hkeep, rfl⟩, hboard⟩ := mem_cleanAndFilter raw w hw
    obtain ⟨hstab, hkeep'⟩ := cleanWorkItem_stable it (h it hmem) hkeep
    exact ⟨hstab, hkeep', hboard⟩
  refine ⟨?_, hlenCF, ?_⟩
  · have step1 : ((cleanAndFilter raw).map toRawWork).filter
        (fun item => truthy item.company && truthy item.jobTitle) =
        (cleanAndFilter raw).map toRawWork := by
      apply List.filter_eq_self.mpr
      intro x hx
      obtain ⟨w, hw, rfl⟩ := List.mem_map.mp hx
      exact (hpoint w hw).2.1
    have step2 : ((cleanAndFilter raw).map toRawWork).take 5 =
        (cleanAndFilter raw).map toRawWork := by
      apply List.take_of_length_le
      rw [List.length_map]
      exact hlenCF
    have step3 : cleanWorkHistory ((cleanAndFilter raw).map toRawWork) =
        cleanAndFilter raw := by
      rw [cleanWorkHistory, step1, step2, List.map_map]
      have : ∀ w ∈ cleanAndFilter raw, (cleanWorkItem ∘ toRawWork) w = id w := by
        intro w hw
        exact (hpoint w hw).1
      rw [List.map_congr_left this, List.map_id]
    rw [cleanAndFilter, step3, filterBoardMemberRoles]
    apply List.filter_eq_self.mpr
    intro w hw
    simp [(hpoint w hw).2.2]
  · intro w hw
    have hk := (hpoint w hw).2.1
    rw [keepsWorkItem, Bool.and_eq_true] at hk
    refine ⟨?_, ?_, (hpoint w hw).2.2⟩
    · have := hk.1
      simpa [toRawWork, truthy, bne_iff_ne] using this
    · have := hk.2
      simpa [toRawWork, truthy, bne_iff_ne] using this

/-- C6 witness: a concrete well-formed entry, idempotence holds. -/
theorem work_clean_idempotent_amended_witness :
    cleanAndFilter ((cleanAndFilter [⟨some "Acme", some "CEO", some "01/2020 - Present"⟩]).map
        toRawWork) =
      cleanAndFilter [⟨some "Acme", some "CEO", some "01/2020 - Present"⟩] ∧
    (cleanAndFilter [⟨some "Acme", some "CEO", some "01/2020 - Present"⟩]).length ≤ 5 ∧
    (∀ w ∈ cleanAndFilter [⟨some "Acme", some "CEO", some "01/2020 - Present"⟩],
        w.company ≠ "" ∧ w.jobTitle ≠ "" ∧ isBoardTitle w.jobTitle = false) :=
  work_clean_idempotent_amended [⟨some "Acme", some "CEO", some "01/2020 - Present"⟩]
    (by decide)

/-! ### Extraction retry state machine
(`AIService.extractWithRetry`, src/services/aiService.ts) -/

/-- An error thrown by `performExtraction`: a message, and — for HTTP 429
responses whose `retry-after` header was present — a parsed
`retryAfter` value in seconds. -/
structure ApiError where
  message : String
  retryAfter : Option Nat
deriving DecidableEq, Repr

/-- Observable events of one retry chain: an attempt being made, and a
`sleep(ms)` between attempts. -/
inductive RetryEvent where
  | attemptMade : Nat → RetryEvent
  | slept : Nat → RetryEvent
deriving DecidableEq, Repr

/-- `const maxAttempts = 3`. -/
def maxAttempts : Nat := 3

/-- `AIService.extractWithRetry`.  `outcome n` is what the `n`-th call of
`performExtraction` does (succeed with a value or throw an `ApiError`).
The JS truthiness test `if (error.retryAfter)` is `ra != 0` on a present
value; `this.retryDelays[attempt - 1]` is `List.getD` (in every
reachable retry `attempt - 1 < 3`, so the default is never used).
Returns the trace of events next to the final `ExtractionResult`
(success value or terminal error message). -/
def extractWithRetry (retryDelays : List Nat) (outcome : Nat → Except ApiError α)
    (attempt : Nat) : List RetryEvent × Except String α :=
  match outcome attempt with
  | .ok r => ([.attemptMade attempt], .ok r)
  | .error e =>
    if _h : attempt < maxAttempts then
      let delay :=
        match e.retryAfter with
        | some ra => if ra != 0 then ra * 1000 else retryDelays.getD (attempt - 1) 0
        | none => retryDelays.getD (attempt - 1) 0
      let rest := extractWithRetry retryDelays outcome (attempt + 1)
      (.attemptMade attempt :: .slept delay :: rest.1, rest.2)
    else
      ([.attemptMade attempt],
        .error ("Failed after " ++ toString maxAttempts ++ " attempts: " ++ e.message))
termination_by maxAttempts - attempt
decreasing_by omega

/-- The backoff-delay rule as the amended claim states it: the error's
retry-after (seconds, converted to ms) when it carries a nonzero one,
otherwise the fixed ladder entry for the failing attempt. -/
def backoffDelay (retryDelays : List Nat) (e : ApiError) (attempt : Nat) : Nat :=
  match e.retryAfter with
  | some ra => if ra != 0 then ra * 1000 else retryDelays.getD (attempt - 1) 0
  | none => retryDelays.getD (attempt - 1) 0

/-- The concrete outcome pattern of the C1 counterexample: the first
attempt fails with a 429 whose `retry-after` header was `0`, the second
succeeds. -/
def retryZeroOutcome : Nat → Except ApiError Unit :=
  fun n => if n = 1 then .error ⟨"rate limited", some 0⟩ else .ok ()

theorem retry_fail_message (msg : String) :
    "Failed after " ++ toString maxAttempts ++ " attempts: " ++ msg =
      "Failed after 3 attempts: " ++ msg := by
  have h : ("Failed after " ++ toString maxAttempts ++ " attempts: " : String) =
      "Failed after 3 attempts: " := by decide
  rw [h]

theorem retry_eq_ok (retryDelays : List Nat) (outcome : Nat → Except ApiError α)
    (attempt : Nat) (r : α) (h : outcome attempt = .ok r) :
    extractWithRetry retryDelays outcome attempt = ([.attemptMade attempt], .ok r) := by
  rw [extractWithRetry, h]

theorem retry_eq_fail_lt (retryDelays : List Nat) (outcome : Nat → Except ApiError α)
    (attempt : Nat) (e : ApiError) (h : outcome attempt = .error e) (hlt : attempt < 3) :
    extractWithRetry retryDelays outcome attempt =
      (.attemptMade attempt :: .slept (backoffDelay retryDelays e attempt) ::
          (extractWithRetry retryDelays outcome (attempt + 1)).1,
        (extractWithRetry retryDelays outcome (attempt + 1)).2) := by
  have hlt' : attempt < maxAttempts := hlt
  rw [extractWithRetry, h]
  simp only [dif_pos hlt']
  rw [backoffDelay]

theorem retry_eq_fail_max (retryDelays : List Nat) (outcome : Nat → Except ApiError α)
    (e : ApiError) (h : outcome 3 = .error e) :
    extractWithRetry retryDelays outcome 3 =
      ([.attemptMade 3], .error ("Failed after 3 attempts: " ++ e.message)) := by
  rw [extractWithRetry, h]
  simp only [dif_neg (by decide : ¬ (3 < maxAttempts))]
  rw [retry_fail_message]

theorem retry_attempt_bounds_aux (retryDelays : List Nat)
    (outcome : Nat → Except ApiError α) :
    ∀ (m k : Nat), 3 - k ≤ m → 1 ≤ k → k ≤ 3 →
      ∀ n, RetryEvent.attemptMade n ∈ (extractWithRetry retryDelays outcome k).1 →
        k ≤ n ∧ n ≤ 3 := by
  intro m
  induction m with
  | zero =>
    intro k hm h1 h3 n hn
    have hk3 : k = 3 := by omega
    subst hk3
    cases houtcome : outcome 3 with
    | ok r =>
      rw [retry_eq_ok retryDelays outcome 3 r houtcome] at hn
      simp at hn
      omega
    | error e =>
      rw [retry_eq_fail_max retryDelays outcome e houtcome] at hn
      simp at hn
      omega
  | succ m ih =>
    intro k hm h1 h3 n hn
    cases houtcome : outcome k with
    | ok r =>
      rw [retry_eq_ok retryDelays outcome k r houtcome] at hn
      simp at hn
      omega
    | error e =>
      by_cases hlt : k < 3
      · rw [retry_eq_fail_lt retryDelays outcome k e houtcome hlt] at hn
        simp only [List.mem_cons] at hn
        rcases hn with h | h | h
        · injection h with h'
          omega
        · exact absurd h (by simp)
        · have := ih (k + 1) (by omega) (by omega) (by omega) n h
          omega
      · have hk3 : k = 3 := by omega
        subst hk3
        rw [retry_eq_fail_max retryDelays outcome e houtcome] at hn
        simp at hn
        omega

/-- C1 (amended): the retry chain makes at most 3 attempts per document
(every attempt number in the trace from attempt 1 lies in `[1, 3]`); a
successful attempt stops the chain with its result; a failed attempt
with attempt count < 3 sleeps for the backoff delay — the error's
retry-after duration (seconds, converted to milliseconds) when the
error carries a NONZERO one (`if (error.retryAfter)` is a JS truthiness
test, so a present retry-after of 0 falls back to the ladder), and
otherwise the fixed per-attempt ladder entry — and then retries; and
when attempts 1, 2, 3 all fail the chain terminates with the error
message "Failed after 3 attempts: " followed by the third failure's
message, never making a 4th attempt. -/
theorem retry_state_machine (retryDelays : List Nat)
    (outcome : Nat → Except ApiError α) :
    (∀ n, RetryEvent.attemptMade n ∈ (extractWithRetry retryDelays outcome 1).1 →
        1 ≤ n ∧ n ≤ 3) ∧
    (∀ attempt (r : α), outcome attempt = .ok r →
        extractWithRetry retryDelays outcome attempt = ([.attemptMade attempt], .ok r)) ∧
    (∀ attempt e, outcome attempt = .error e → attempt < 3 →
        extractWithRetry retryDelays outcome attempt =
          (.attemptMade attempt :: .slept (backoffDelay retryDelays e attempt) ::
              (extractWithRetry retryDelays outcome (attempt + 1)).1,
            (extractWithRetry retryDelays outcome (attempt + 1)).2)) ∧
    (∀ e, outcome 3 = .error e →
        extractWithRetry retryDelays outcome 3 =
          ([.attemptMade 3], .error ("Failed after 3 attempts: " ++ e.message))) ∧
    (∀ e1 e2 e3, outcome 1 = .error e1 → outcome 2 = .error e2 → outcome 3 = .error e3 →
        extractWithRetry retryDelays outcome 1 =
          ([.attemptMade 1, .slept (backoffDelay retryDelays e1 1),
            .attemptMade 2, .slept (backoffDelay retryDelays e2 2), .attemptMade 3],
            .error ("Failed after 3 attempts: " ++ e3.message))) := by
  refine ⟨?_, ?_, ?_, ?_, ?_⟩
  · intro n hn
    exact retry_attempt_bounds_aux retryDelays outcome 3 1 (by omega) (by omega) (by omega) n hn
  · intro attempt r h
    exact retry_eq_ok retryDelays outcome attempt r h
  · intro attempt e h hlt
    exact retry_eq_fail_lt retryDelays outcome attempt e h hlt
  · intro e h
    exact retry_eq_fail_max retryDelays outcome e h
  · intro e1 e2 e3 h1 h2 h3
    rw [retry_eq_fail_lt retryDelays outcome 1 e1 h1 (by omega),
      retry_eq_fail_lt retryDelays outcome 2 e2 h2 (by omega),
      retry_eq_fail_max retryDelays outcome e3 h3]

/-- C1 witness: with sustained failure on every attempt the chain stops
after attempt 3 with the terminal message. -/
theorem retry_state_machine_witness :
    extractWithRetry [2000, 4000, 8000] (fun _ => .error (⟨"boom", none⟩ : ApiError))
        (α := Unit) 1 =
      ([.attemptMade 1, .slept 2000, .attemptMade 2, .slept 4000, .attemptMade 3],
        .error "Failed after 3 attempts: boom") :=
  (retry_state_machine [2000, 4000, 8000]
      (fun _ => .error (⟨"boom", none⟩ : ApiError))).2.2.2.2 ⟨"boom", none⟩ ⟨"boom", none⟩
    ⟨"boom", none⟩ rfl rfl rfl

/-- C1 (counterexample to the claim as stated): an error carrying a
retry-after of 0 seconds (a real `retry-after: 0` header parses to the
number 0, which is falsy).  The claim says the wait is the carried
duration converted to milliseconds, i.e. `0 * 1000 = 0` ms; the code's
truthiness test skips it and sleeps the ladder entry, 2000 ms. -/
theorem retry_after_zero_counterexample :
    retryZeroOutcome 1 = .error ⟨"rate limited", some 0⟩ ∧
    (extractWithRetry [2000, 4000, 8000] retryZeroOutcome 1).1 =
      [.attemptMade 1, .slept 2000, .attemptMade 2] ∧
    (2000 : Nat) ≠ 0 * 1000 := by
  refine ⟨rfl, ?_, by decide⟩
  rw [extractWithRetry]
  simp [retryZeroOutcome, maxAttempts]
  rw [extractWithRetry]
  simp [retryZeroOutcome]

/-! ### Rate-limited queue (src/services/rateLimiter.ts) -/

/-- Timed model of `RateLimiter.processQueue`.  A queued closure is a
triple `(id, lag, dur)`: `lag` is the wall-clock time that passes
between the previous closure settling (or the drain loop starting) and
the loop turning to this entry — it absorbs event-loop latency and idle
gaps between drain sessions — and `dur` is how long the closure runs.
State `(last, now)`: `last` is `lastRequestTime` (the instant of the
previous dispatch, `0` initially, persisted across drain sessions),
`now` the current clock.  The loop computes
`timeSinceLastRequest = now - last` and sleeps for the remainder when it
is below `minDelayMs`, so the dispatch instant is
`max (now + lag) (last + minDelay)`; it records it in
`lastRequestTime` and awaits the closure, which settles `dur` later.
Returns `(id, dispatch instant, settle instant)` per entry, in dispatch
order. -/
def schedule (minDelay : Nat) : Nat → Nat → List (α × Nat × Nat) → List (α × Nat × Nat)
  | _, _, [] => []
  | last, now, (a, lag, dur) :: jobs =>
    let t := max (now + lag) (last + minDelay)
    (a, t, t + dur) :: schedule minDelay t (t + dur) jobs

theorem schedule_start_lb (minDelay : Nat) (jobs : List (α × Nat × Nat)) :
    ∀ (last now : Nat), ∀ x ∈ schedule minDelay last now jobs,
      last + minDelay ≤ x.2.1 ∧ now ≤ x.2.1 := by
  induction jobs with
  | nil =>
    intro last now x hx
    simp [schedule] at hx
  | cons j rest ih =>
    intro last now x hx
    obtain ⟨a, lag, dur⟩ := j
    rw [schedule] at hx
    rcases List.mem_cons.mp hx with rfl | hx'
    · refine ⟨le_max_right _ _, le_trans (Nat.le_add_right now lag) (le_max_left _ _)⟩
    · obtain ⟨h1, h2⟩ := ih _ _ x hx'
      have hm1 : last + minDelay ≤ max (now + lag) (last + minDelay) := le_max_right _ _
      have hm2 : now + lag ≤ max (now + lag) (last + minDelay) := le_max_left _ _
      omega

theorem schedule_map_id (minDelay : Nat) (jobs : List (α × Nat × Nat)) :
    ∀ (last now : Nat),
      (schedule minDelay last now jobs).map (fun x => x.1) = jobs.map (fun x => x.1) := by
  induction jobs with
  | nil => intro last now; rfl
  | cons j rest ih =>
    intro last now
    obtain ⟨a, lag, dur⟩ := j
    rw [schedule]
    simp only [List.map_cons]
    rw [ih]

/-- C2: for every `minDelayMs ≥ 0` (any `Nat`), every persisted
last-dispatch instant and clock, and every enqueue pattern, the drain
loop dispatches the queued closures in FIFO order (the identifier
sequence of the schedule is the identifier sequence of the queue), the
first dispatch is at least `minDelay` after the recorded previous
dispatch, and every two dispatch instants — consecutive or not — are at
least `minDelay` apart. -/
theorem rate_limiter_fifo_spacing (minDelay last now : Nat)
    (jobs : List (α × Nat × Nat)) :
    (schedule minDelay last now jobs).map (fun x => x.1) = jobs.map (fun x => x.1) ∧
    List.Chain (fun t u => t + minDelay ≤ u) last
      ((schedule minDelay last now jobs).map (fun x => x.2.1)) ∧
    List.Pairwise (fun t u => t + minDelay ≤ u)
      ((schedule minDelay last now jobs).map (fun x => x.2.1)) := by
  refine ⟨schedule_map_id minDelay jobs last now, ?_, ?_⟩
  · induction jobs generalizing last now with
    | nil => exact List.Chain.nil
    | cons j rest ih =>
      obtain ⟨a, lag, dur⟩ := j
      rw [schedule]
      simp only [List.map_cons]
      exact List.Chain.cons (le_max_right _ _) (ih _ _)
  · induction jobs generalizing last now with
    | nil => exact List.Pairwise.nil
    | cons j rest ih =>
      obtain ⟨a, lag, dur⟩ := j
      rw [schedule]
      simp only [List.map_cons]
      refine List.Pairwise.cons ?_ (ih _ _)
      intro u hu
      obtain ⟨x, hx, rfl⟩ := List.mem_map.mp hu
      exact (schedule_start_lb minDelay rest _ _ x hx).1

/-- C10: the drain loop runs the queued closures strictly one after
another: for any two entries in queue order, the earlier one's settle
instant is no later than the later one's dispatch instant (the loop
awaits each closure before dispatching the next, so no two closures —
e.g. the extraction calls of a 5-document batch, including their
internal retries and backoff sleeps — are ever in flight together), and
the execution order is the enqueue order. -/
theorem queue_serial_execution (minDelay last now : Nat)
    (jobs : List (α × Nat × Nat)) :
    List.Pairwise (fun x y => x.2.2 ≤ y.2.1) (schedule minDelay last now jobs) ∧
    (schedule minDelay last now jobs).map (fun x => x.1) = jobs.map (fun x => x.1) := by
  refine ⟨?_, schedule_map_id minDelay jobs last now⟩
  induction jobs generalizing last now with
  | nil => exact List.Pairwise.nil
  | cons j rest ih =>
    obtain ⟨a, lag, dur⟩ := j
    rw [schedule]
    refine List.Pairwise.cons ?_ (ih _ _)
    intro y hy
    exact (schedule_start_lb minDelay rest _ _ y hy).2

/-! ### Text reconstruction (`PDFService.parsePDF`, pdfService.ts) -/

/-- One positioned text fragment of a pdf.js page: `item.str` and the
vertical coordinate `item.transform[5]`. -/
structure TextItem where
  str : String
  y : Int
deriving DecidableEq, Repr

/-- The fragment loop of `PDFService.parsePDF`: `lastY` starts at `-1`;
a fragment opens a new line when `lastY !== -1 &&
Math.abs(currentY - lastY) > 2`, otherwise (for `idx > 0`) a single
space is inserted; fragment text is appended verbatim. -/
def reconstructAux (acc : List Char) (lastY : Int) (idx : Nat) :
    List TextItem → List Char
  | [] => acc
  | item :: rest =>
    let sep : List Char :=
      if lastY ≠ -1 ∧ 2 < (item.y - lastY).natAbs then ['\n']
      else if 0 < idx then [' '] else []
    reconstructAux (acc ++ sep ++ item.str.data) item.y (idx + 1) rest

/-- Text reconstruction for one page. -/
def reconstructPage (items : List TextItem) : String :=
  ⟨reconstructAux [] (-1) 0 items⟩

/-- The separator rule exactly as the original claim states it: a new
line whenever the vertical coordinate differs from the previous
fragment's by strictly more than 2, else a single space. -/
def claimSep (prevY y : Int) : List Char :=
  if 2 < (y - prevY).natAbs then ['\n'] else [' ']

def claimReconstructAux (acc : List Char) (prevY : Int) : List TextItem → List Char
  | [] => acc
  | item :: rest =>
    claimReconstructAux (acc ++ claimSep prevY item.y ++ item.str.data) item.y rest

/-- Reconstruction as the claim describes it (no sentinel). -/
def claimReconstruct : List TextItem → String
  | [] => ""
  | item :: rest => ⟨claimReconstructAux item.str.data item.y rest⟩

/-- The separator rule the code actually implements for non-first
fragments: additionally, a previous coordinate of exactly `-1` (the
code's no-previous sentinel value) never opens a new line. -/
def amendedSep (prevY y : Int) : List Char :=
  if prevY ≠ -1 ∧ 2 < (y - prevY).natAbs then ['\n'] else [' ']

def amendedReconstructAux (acc : List Char) (prevY : Int) : List TextItem → List Char
  | [] => acc
  | item :: rest =>
    amendedReconstructAux (acc ++ amendedSep prevY item.y ++ item.str.data) item.y rest

/-- Closed-form reconstruction per the amended claim. -/
def amendedReconstruct : List TextItem → String
  | [] => ""
  | item :: rest => ⟨amendedReconstructAux item.str.data item.y rest⟩

/-- C9 (counterexample to the claim as stated): a first fragment whose
vertical coordinate is exactly `-1` collides with the sentinel: the next
fragment's coordinate differs by 101 > 2, so the claim says a new line
is started, but the code's `lastY !== -1` guard fails and it joins the
line with a space. -/
theorem reconstruct_sentinel_counterexample :
    claimReconstruct [⟨"a", -1⟩, ⟨"b", 100⟩] = "a\nb" ∧
    reconstructPage [⟨"a", -1⟩, ⟨"b", 100⟩] = "a b" ∧
    ("a b" : String) ≠ "a\nb" := by
  refine ⟨by decide, by decide, by decide⟩

theorem reconstructAux_eq_amended (items : List TextItem) :
    ∀ (acc : List Char) (prevY : Int) (idx : Nat), 1 ≤ idx →
      reconstructAux acc prevY idx items = amendedReconstructAux acc prevY items := by
  induction items with
  | nil => intro acc prevY idx _; rfl
  | cons item rest ih =>
    intro acc prevY idx hidx
    rw [reconstructAux, amendedReconstructAux]
    have hsep : (if prevY ≠ -1 ∧ 2 < (item.y - prevY).natAbs then ['\n']
        else if 0 < idx then [' '] else []) = amendedSep prevY item.y := by
      rw [amendedSep]
      by_cases hc : prevY ≠ -1 ∧ 2 < (item.y - prevY).natAbs
      · rw [if_pos hc, if_pos hc]
      · rw [if_neg hc, if_neg hc, if_pos (by omega)]
    rw [hsep]
    exact ih _ _ (idx + 1) (by omega)

/-- C9 (amended): the reconstructor processes fragments in order; the
very first fragment gets no separator; a later fragment starts a new
line exactly when the previous fragment's vertical coordinate is not
the sentinel value `-1` and differs from the current one by strictly
more than 2 layout units, and otherwise is joined with a single space;
fragment text is concatenated verbatim, and a page with zero fragments
yields the empty string. -/
theorem reconstruct_characterization :
    reconstructPage [] = "" ∧
    ∀ items : List TextItem, reconstructPage items = amendedReconstruct items := by
  refine ⟨rfl, ?_⟩
  intro items
  cases items with
  | nil => rfl
  | cons item rest =>
    rw [reconstructPage, amendedReconstruct, reconstructAux]
    have hsep : (if (-1 : Int) ≠ -1 ∧ 2 < (item.y - -1).natAbs then ['\n']
        else if 0 < (0 : Nat) then [' '] else []) = ([] : List Char) := by
      rw [if_neg (by simp), if_neg (by omega)]
    rw [hsep]
    simp only [List.nil_append]
    rw [reconstructAux_eq_amended rest item.str.data item.y 1 (by omega)]

/-! ### Document segmentation (`PDFService.splitIntoCVs`, pdfService.ts) -/

/-- `ParsedCV` from `types.ts`. -/
structure ParsedCV where
  pageNumbers : List Nat
  text : String
deriving DecidableEq, Repr

/-- `cvs.push(currentCV)` when a document is open. -/
def pushCurrent (cvs : List ParsedCV) : Option ParsedCV → List ParsedCV
  | none => cvs
  | some cv => cvs ++ [cv]

/-- The digit test of the regex class `\d`. -/
def isDigitB (c : Char) : Bool := c.isDigit

/-- The literal `page` of the boundary regexes, as characters. -/
def pageChars : List Char := ['p', 'a', 'g', 'e']

/-- The literal `of` of the boundary regexes, as characters. -/
def ofChars : List Char := ['o', 'f']

/-- The word-character test of the regex boundary `\b`:
`\w = [A-Za-z0-9_]`. -/
def isWordB (c : Char) : Bool := c.isAlphanum || c == '_'

/-- `pageText.replace(/\s+/g, ' ')`: each maximal whitespace run is
replaced by a single space.  The flag records whether the previous
character was part of a whitespace run. -/
def collapseWs : Bool → List Char → List Char
  | _, [] => []
  | prevWs, c :: rest =>
    if isWsB c then
      if prevWs then collapseWs true rest else ' ' :: collapseWs true rest
    else c :: collapseWs false rest

/-- `pageText.replace(/\s+/g, ' ').toLowerCase()`. -/
def normalize (s : String) : String :=
  ⟨(collapseWs false s.data).map Char.toLower⟩

/-- `\s*` skipping (exact for these patterns: every literal that follows
a `\s*` in them is a non-whitespace character, so the greedy skip is the
only possible match). -/
def skipWs (l : List Char) : List Char := l.dropWhile isWsB

/-- Match the literal `pat` at the head, returning the remainder. -/
def stripToken : List Char → List Char → Option (List Char)
  | [], l => some l
  | _ :: _, [] => none
  | p :: ps, c :: cs => if p == c then stripToken ps cs else none

/-- `\d+` followed by anything: at least one digit here. -/
def digitsStart : List Char → Bool
  | [] => false
  | c :: _ => isDigitB c

/-- `/page\s*1\s*of\s*\d+/i` matching at the current position (the
normalized text is already lowercase, which discharges the `i` flag). -/
def p1At (l : List Char) : Bool :=
  match stripToken pageChars l with
  | none => false
  | some r1 =>
    match stripToken ['1'] (skipWs r1) with
    | none => false
    | some r2 =>
      match stripToken ofChars (skipWs r2) with
      | none => false
      | some r3 => digitsStart (skipWs r3)

/-- `/page\s*1\s*\/\s*\d+/i` matching at the current position. -/
def p2At (l : List Char) : Bool :=
  match stripToken pageChars l with
  | none => false
  | some r1 =>
    match stripToken ['1'] (skipWs r1) with
    | none => false
    | some r2 =>
      match stripToken ['/'] (skipWs r2) with
      | none => false
      | some r3 => digitsStart (skipWs r3)

/-- `/^1\s*of\s*\d+/i` (anchored at the start of the text). -/
def p3At (l : List Char) : Bool :=
  match stripToken ['1'] l with
  | none => false
  | some r1 =>
    match stripToken ofChars (skipWs r1) with
    | none => false
    | some r2 => digitsStart (skipWs r2)

/-- `/^1\s*\/\s*\d+/i` (anchored at the start of the text). -/
def p4At (l : List Char) : Bool :=
  match stripToken ['1'] l with
  | none => false
  | some r1 =>
    match stripToken ['/'] (skipWs r1) with
    | none => false
    | some r2 => digitsStart (skipWs r2)

/-- `/\bpage\s*1\b/i` matching at the current position: the word
boundary before `page` is handled by the boundary-aware search, the one
after `1` demands end of text or a non-word character. -/
def p5At (l : List Char) : Bool :=
  match stripToken pageChars l with
  | none => false
  | some r1 =>
    match stripToken ['1'] (skipWs r1) with
    | none => false
    | some rest =>
      match rest with
      | [] => true
      | c :: _ => !isWordB c

/-- Unanchored regex search: try the pattern at every position. -/
def searchAnywhere (f : List Char → Bool) : List Char → Bool
  | [] => f []
  | c :: rest => f (c :: rest) || searchAnywhere f rest

/-- The `\b` condition on the left of a word character: start of text or
a non-word character before the current position. -/
def nonWordBefore : Option Char → Bool
  | none => true
  | some c => !isWordB c

/-- Regex search trying the pattern only at positions preceded by a word
boundary (`prev` is the character before the current position). -/
def searchAtWordStart (f : List Char → Bool) : Option Char → List Char → Bool
  | prev, [] => nonWordBefore prev && f []
  | prev, c :: rest =>
    (nonWordBefore prev && f (c :: rest)) || searchAtWordStart f (some c) rest

/-- The boundary test of `PDFService.splitIntoCVs`: normalize the page
text and test the five patterns; any match signals a new document. -/
def isNewCV (pageText : String) : Bool :=
  searchAnywhere p1At (normalize pageText).data ||
  searchAnywhere p2At (normalize pageText).data ||
  p3At (normalize pageText).data ||
  p4At (normalize pageText).data ||
  searchAtWordStart p5At none (normalize pageText).data

/-- The `forEach` loop of `PDFService.splitIntoCVs`, with the final
flush of a still-open document.  `index` is the 0-based loop index; page
numbers are `index + 1`. -/
def splitAux : List String → Nat → List ParsedCV → Option ParsedCV → List ParsedCV
  | [], _, cvs, cur => pushCurrent cvs cur
  | t :: rest, index, cvs, cur =>
    if isNewCV t then
      splitAux rest (index + 1) (pushCurrent cvs cur) (some ⟨[index + 1], t⟩)
    else
      match cur with
      | some cv =>
        splitAux rest (index + 1) cvs
          (some ⟨cv.pageNumbers ++ [index + 1], cv.text ++ "\n\n" ++ t⟩)
      | none => splitAux rest (index + 1) cvs (some ⟨[index + 1], t⟩)

/-- `PDFService.splitIntoCVs`. -/
def splitIntoCVs (pageTexts : List String) : List ParsedCV :=
  splitAux pageTexts 0 [] none

/-- The pages of the still-open document, if any. -/
def pagesOf : Option ParsedCV → List Nat
  | none => []
  | some cv => cv.pageNumbers

/-- The concatenation of the documents' page-number lists. -/
def allPages : List ParsedCV → List Nat
  | [] => []
  | cv :: rest => cv.pageNumbers ++ allPages rest

theorem allPages_append (a b : List ParsedCV) :
    allPages (a ++ b) = allPages a ++ allPages b := by
  induction a with
  | nil => rfl
  | cons cv rest ih => simp [allPages, ih]

theorem allPages_push (cvs : List ParsedCV) (cur : Option ParsedCV) :
    allPages (pushCurrent cvs cur) = allPages cvs ++ pagesOf cur := by
  cases cur with
  | none => simp [pushCurrent, pagesOf]
  | some cv => simp [pushCurrent, pagesOf, allPages_append, allPages]

theorem splitAux_pages (pts : List String) :
    ∀ (index : Nat) (cvs : List ParsedCV) (cur : Option ParsedCV),
      allPages (splitAux pts index cvs cur) =
        allPages cvs ++ pagesOf cur ++ List.range' (index + 1) pts.length := by
  induction pts with
  | nil =>
    intro index cvs cur
    simp [splitAux, allPages_push]
  | cons t rest ih =>
    intro index cvs cur
    rw [splitAux.eq_def]
    simp only []
    by_cases hnew : isNewCV t
    · rw [if_pos hnew, ih, allPages_push]
      rw [List.length_cons, List.range'_succ]
      simp [pagesOf, List.append_assoc]
    · rw [if_neg hnew]
      cases cur with
      | some cv =>
        rw [ih]
        rw [List.length_cons, List.range'_succ]
        simp [pagesOf, List.append_assoc]
      | none =>
        rw [ih]
        rw [List.length_cons, List.range'_succ]
        simp [pagesOf, List.append_assoc]

/-- C8: for every list of page texts, the concatenation of the returned
documents' page-number lists is exactly `[1, 2, ..., N]` in order —
every page lands in exactly one document, none dropped (a leading
non-matching page opens a document, the still-open document is flushed
at end of input) and none duplicated; consequently page numbers are
strictly increasing and contiguous within each document. -/
theorem split_pages_partition (pageTexts : List String) :
    allPages (splitIntoCVs pageTexts) = List.range' 1 pageTexts.length := by
  rw [splitIntoCVs, splitAux_pages pageTexts 0 [] none]
  simp [allPages, pagesOf]

/-! ### Claim C7: the boundary classifier, related to the five
patterns as the specification describes them -/

/-- A run of whitespace characters (what a `\s*` consumes). -/
def WsRun (w : List Char) : Prop := ∀ c ∈ w, isWsB c = true

/-- A nonempty run of digits (what a `\d+` consumes). -/
def DigitsRun (d : List Char) : Prop := d ≠ [] ∧ ∀ c ∈ d, isDigitB c = true

/-- Spec pattern 1: `page 1 of <digits>` — with optional whitespace
between the tokens — occurring anywhere in the text. -/
def specPageOne (l : List Char) : Prop :=
  ∃ pre w1 w2 w3 d suf,
    l = pre ++ pageChars ++ w1 ++ ['1'] ++ w2 ++ ofChars ++ w3 ++ d ++ suf ∧
    WsRun w1 ∧ WsRun w2 ∧ WsRun w3 ∧ DigitsRun d

/-- Spec pattern 2: `page 1 / <digits>` (slash form) anywhere. -/
def specPageSlash (l : List Char) : Prop :=
  ∃ pre w1 w2 w3 d suf,
    l = pre ++ pageChars ++ w1 ++ ['1'] ++ w2 ++ ['/'] ++ w3 ++ d ++ suf ∧
    WsRun w1 ∧ WsRun w2 ∧ WsRun w3 ∧ DigitsRun d

/-- Spec pattern 3: `1 of <digits>` anchored at the start of the text. -/
def specOneOf (l : List Char) : Prop :=
  ∃ w1 w2 d suf, l = ['1'] ++ w1 ++ ofChars ++ w2 ++ d ++ suf ∧
    WsRun w1 ∧ WsRun w2 ∧ DigitsRun d

/-- Spec pattern 4: `1/<digits>` anchored at the start of the text. -/
def specOneSlash (l : List Char) : Prop :=
  ∃ w1 w2 d suf, l = ['1'] ++ w1 ++ ['/'] ++ w2 ++ d ++ suf ∧
    WsRun w1 ∧ WsRun w2 ∧ DigitsRun d

/-- Spec pattern 5: the bare word sequence `page 1` anywhere in the
text (word boundaries on both sides). -/
def specBarePageOne (l : List Char) : Prop :=
  ∃ pre w1 suf, l = pre ++ pageChars ++ w1 ++ ['1'] ++ suf ∧ WsRun w1 ∧
    (pre = [] ∨ ∃ c pre2, pre = pre2 ++ [c] ∧ isWordB c = false) ∧
    (suf = [] ∨ ∃ c suf2, suf = c :: suf2 ∧ isWordB c = false)

theorem stripToken_eq_some (pat : List Char) :
    ∀ l r, stripToken pat l = some r ↔ l = pat ++ r := by
  induction pat with
  | nil =>
    intro l r
    simp [stripToken]
  | cons p ps ih =>
    intro l r
    cases l with
    | nil => simp [stripToken]
    | cons c cs =>
      by_cases hpc : p == c
      · have hpc' : p = c := by simpa using hpc
        subst hpc'
        simp [stripToken, ih]
      · have hpc' : ¬ (c = p) := by
          intro hcp
          exact hpc (by simp [hcp])
        simp [stripToken, hpc, hpc']

theorem stripToken_append (pat r : List Char) : stripToken pat (pat ++ r) = some r :=
  (stripToken_eq_some pat (pat ++ r) r).mpr rfl

theorem skipWs_decomp (l : List Char) : ∃ w, l = w ++ skipWs l ∧ WsRun w :=
  ⟨l.takeWhile isWsB, (List.takeWhile_append_dropWhile isWsB l).symm,
    fun _ hc => List.mem_takeWhile_imp hc⟩

theorem skipWs_ws_cons (w : List Char) (c : Char) (r : List Char)
    (hw : WsRun w) (hc : isWsB c = false) : skipWs (w ++ c :: r) = c :: r := by
  induction w with
  | nil => simp [skipWs, List.dropWhile_cons, hc]
  | cons a as ih =>
    have ha : isWsB a = true := hw a (List.mem_cons_self a as)
    rw [List.cons_append, skipWs, List.dropWhile_cons, if_pos ha]
    exact ih fun x hx => hw x (List.mem_cons_of_mem a hx)

theorem digitsStart_iff (l : List Char) :
    digitsStart l = true ↔ ∃ c r, l = c :: r ∧ isDigitB c = true := by
  cases l with
  | nil => simp [digitsStart]
  | cons c r =>
    simp only [digitsStart]
    constructor
    · intro h
      exact ⟨c, r, rfl, h⟩
    · rintro ⟨c', r', heq, h⟩
      cases heq
      exact h

theorem not_ws_of_digit (c : Char) (h : isDigitB c = true) : isWsB c = false := by
  by_contra hws
  rw [Bool.not_eq_false] at hws
  have hcases : ((c = ' ' ∨ c = '\t') ∨ c = '\r') ∨ c = '\n' := by
    simpa [isWsB, Char.isWhitespace] using hws
  rcases hcases with ((rfl | rfl) | rfl) | rfl <;> exact absurd h (by decide)

theorem searchAnywhere_iff (f : List Char → Bool) (l : List Char) :
    searchAnywhere f l = true ↔ ∃ pre suf, l = pre ++ suf ∧ f suf = true := by
  induction l with
  | nil =>
    simp only [searchAnywhere]
    constructor
    · intro h
      exact ⟨[], [], rfl, h⟩
    · rintro ⟨pre, suf, heq, h⟩
      obtain ⟨rfl, rfl⟩ := List.append_eq_nil.mp heq.symm
      exact h
  | cons c rest ih =>
    simp only [searchAnywhere, Bool.or_eq_true, ih]
    constructor
    · rintro (h | ⟨pre, suf, rfl, h⟩)
      · exact ⟨[], c :: rest, rfl, h⟩
      · exact ⟨c :: pre, suf, rfl, h⟩
    · rintro ⟨pre, suf, heq, h⟩
      cases pre with
      | nil =>
        rw [List.nil_append] at heq
        exact Or.inl (heq ▸ h)
      | cons p pre' =>
        rw [List.cons_append] at heq
        injection heq with h1 h2
        exact Or.inr ⟨pre', suf, h2, h⟩

theorem p1At_intro (w1 w2 w3 : List Char) (c : Char) (tail : List Char)
    (hw1 : WsRun w1) (hw2 : WsRun w2) (hw3 : WsRun w3) (hc : isDigitB c = true) :
    p1At (pageChars ++ (w1 ++ '1' :: (w2 ++ 'o' :: 'f' :: (w3 ++ c :: tail)))) = true := by
  have e1 : stripToken pageChars
      (pageChars ++ (w1 ++ '1' :: (w2 ++ 'o' :: 'f' :: (w3 ++ c :: tail)))) =
      some (w1 ++ '1' :: (w2 ++ 'o' :: 'f' :: (w3 ++ c :: tail))) :=
    stripToken_append pageChars _
  have e2 : skipWs (w1 ++ '1' :: (w2 ++ 'o' :: 'f' :: (w3 ++ c :: tail))) =
      '1' :: (w2 ++ 'o' :: 'f' :: (w3 ++ c :: tail)) :=
    skipWs_ws_cons w1 '1' _ hw1 (by decide)
  have e3 : stripToken ['1'] ('1' :: (w2 ++ 'o' :: 'f' :: (w3 ++ c :: tail))) =
      some (w2 ++ 'o' :: 'f' :: (w3 ++ c :: tail)) :=
    stripToken_append ['1'] _
  have e4 : skipWs (w2 ++ 'o' :: 'f' :: (w3 ++ c :: tail)) =
      'o' :: 'f' :: (w3 ++ c :: tail) :=
    skipWs_ws_cons w2 'o' _ hw2 (by decide)
  have e5 : stripToken ofChars ('o' :: 'f' :: (w3 ++ c :: tail)) = some (w3 ++ c :: tail) :=
    stripToken_append ofChars _
  have e6 : skipWs (w3 ++ c :: tail) = c :: tail :=
    skipWs_ws_cons w3 c _ hw3 (not_ws_of_digit c hc)
  simp only [p1At, e1, e2, e3, e4, e5, e6, digitsStart]
  exact hc

theorem p1At_iff (l : List Char) :
    p1At l = true ↔ ∃ w1 w2 w3 d suf,
      l = pageChars ++ w1 ++ ['1'] ++ w2 ++ ofChars ++ w3 ++ d ++ suf ∧
      WsRun w1 ∧ WsRun w2 ∧ WsRun w3 ∧ DigitsRun d := by
  constructor
  · intro h
    rw [p1At] at h
    split at h
    · exact absurd h (by simp)
    · rename_i r1 heq1
      split at h
      · exact absurd h (by simp)
      · rename_i r2 heq2
        split at h
        · exact absurd h (by simp)
        · rename_i r3 heq3
          obtain ⟨c, rrest, hsk3, hdig⟩ := (digitsStart_iff _).mp h
          have hl := (stripToken_eq_some _ _ _).mp heq1
          have hr1 := (stripToken_eq_some _ _ _).mp heq2
          have hr2 := (stripToken_eq_some _ _ _).mp heq3
          obtain ⟨w1, hw1d, hw1⟩ := skipWs_decomp r1
          obtain ⟨w2, hw2d, hw2⟩ := skipWs_decomp r2
          obtain ⟨w3, hw3d, hw3⟩ := skipWs_decomp r3
          refine ⟨w1, w2, w3, [c], rrest, ?_, hw1, hw2, hw3, by simp, by simp [hdig]⟩
          rw [hl, hw1d, hr1, hw2d, hr2, hw3d, hsk3]
          simp [List.append_assoc]
  · rintro ⟨w1, w2, w3, d, suf, heq, hw1, hw2, hw3, hdne, hdall⟩
    obtain ⟨c, d', rfl⟩ : ∃ c d', d = c :: d' := by
      cases d with
      | nil => exact absurd rfl hdne
      | cons c d' => exact ⟨c, d', rfl⟩
    have hnorm : l = pageChars ++ (w1 ++ '1' :: (w2 ++ 'o' :: 'f' :: (w3 ++ c :: (d' ++ suf)))) := by
      rw [heq]
      simp [ofChars, List.append_assoc]
    rw [hnorm]
    exact p1At_intro w1 w2 w3 c (d' ++ suf) hw1 hw2 hw3 (hdall c (by simp))

theorem p2At_intro (w1 w2 w3 : List Char) (c : Char) (tail : List Char)
    (hw1 : WsRun w1) (hw2 : WsRun w2) (hw3 : WsRun w3) (hc : isDigitB c = true) :
    p2At (pageChars ++ (w1 ++ '1' :: (w2 ++ '/' :: (w3 ++ c :: tail)))) = true := by
  have e1 : stripToken pageChars
      (pageChars ++ (w1 ++ '1' :: (w2 ++ '/' :: (w3 ++ c :: tail)))) =
      some (w1 ++ '1' :: (w2 ++ '/' :: (w3 ++ c :: tail))) :=
    stripToken_append pageChars _
  have e2 : skipWs (w1 ++ '1' :: (w2 ++ '/' :: (w3 ++ c :: tail))) =
      '1' :: (w2 ++ '/' :: (w3 ++ c :: tail)) :=
    skipWs_ws_cons w1 '1' _ hw1 (by decide)
  have e3 : stripToken ['1'] ('1' :: (w2 ++ '/' :: (w3 ++ c :: tail))) =
      some (w2 ++ '/' :: (w3 ++ c :: tail)) :=
    stripToken_append ['1'] _
  have e4 : skipWs (w2 ++ '/' :: (w3 ++ c :: tail)) = '/' :: (w3 ++ c :: tail) :=
    skipWs_ws_cons w2 '/' _ hw2 (by decide)
  have e5 : stripToken ['/'] ('/' :: (w3 ++ c :: tail)) = some (w3 ++ c :: tail) :=
    stripToken_append ['/'] _
  have e6 : skipWs (w3 ++ c :: tail) = c :: tail :=
    skipWs_ws_cons w3 c _ hw3 (not_ws_of_digit c hc)
  simp only [p2At, e1, e2, e3, e4, e5, e6, digitsStart]
  exact hc

theorem p2At_iff (l : List Char) :
    p2At l = true ↔ ∃ w1 w2 w3 d suf,
      l = pageChars ++ w1 ++ ['1'] ++ w2 ++ ['/'] ++ w3 ++ d ++ suf ∧
      WsRun w1 ∧ WsRun w2 ∧ WsRun w3 ∧ DigitsRun d := by
  constructor
  · intro h
    rw [p2At] at h
    split at h
    · exact absurd h (by simp)
    · rename_i r1 heq1
      split at h
      · exact absurd h (by simp)
      · rename_i r2 heq2
        split at h
        · exact absurd h (by simp)
        · rename_i r3 heq3
          obtain ⟨c, rrest, hsk3, hdig⟩ := (digitsStart_iff _).mp h
          have hl := (stripToken_eq_some _ _ _).mp heq1
          have hr1 := (stripToken_eq_some _ _ _).mp heq2
          have hr2 := (stripToken_eq_some _ _ _).mp heq3
          obtain ⟨w1, hw1d, hw1⟩ := skipWs_decomp r1
          obtain ⟨w2, hw2d, hw2⟩ := skipWs_decomp r2
          obtain ⟨w3, hw3d, hw3⟩ := skipWs_decomp r3
          refine ⟨w1, w2, w3, [c], rrest, ?_, hw1, hw2, hw3, by simp, by simp [hdig]⟩
          rw [hl, hw1d, hr1, hw2d, hr2, hw3d, hsk3]
          simp [List.append_assoc]
  · rintro ⟨w1, w2, w3, d, suf, heq, hw1, hw2, hw3, hdne, hdall⟩
    obtain ⟨c, d', rfl⟩ : ∃ c d', d = c :: d' := by
      cases d with
      | nil => exact absurd rfl hdne
      | cons c d' => exact ⟨c, d', rfl⟩
    have hnorm : l = pageChars ++ (w1 ++ '1' :: (w2 ++ '/' :: (w3 ++ c :: (d' ++ suf)))) := by
      rw [heq]
      simp [List.append_assoc]
    rw [hnorm]
    exact p2At_intro w1 w2 w3 c (d' ++ suf) hw1 hw2 hw3 (hdall c (by simp))

theorem p3At_intro (w1 w2 : List Char) (c : Char) (tail : List Char)
    (hw1 : WsRun w1) (hw2 : WsRun w2) (hc : isDigitB c = true) :
    p3At ('1' :: (w1 ++ 'o' :: 'f' :: (w2 ++ c :: tail))) = true := by
  have e1 : stripToken ['1'] ('1' :: (w1 ++ 'o' :: 'f' :: (w2 ++ c :: tail))) =
      some (w1 ++ 'o' :: 'f' :: (w2 ++ c :: tail)) :=
    stripToken_append ['1'] _
  have e2 : skipWs (w1 ++ 'o' :: 'f' :: (w2 ++ c :: tail)) =
      'o' :: 'f' :: (w2 ++ c :: tail) :=
    skipWs_ws_cons w1 'o' _ hw1 (by decide)
  have e3 : stripToken ofChars ('o' :: 'f' :: (w2 ++ c :: tail)) = some (w2 ++ c :: tail) :=
    stripToken_append ofChars _
  have e4 : skipWs (w2 ++ c :: tail) = c :: tail :=
    skipWs_ws_cons w2 c _ hw2 (not_ws_of_digit c hc)
  simp only [p3At, e1, e2, e3, e4, digitsStart]
  exact hc

theorem p3At_iff (l : List Char) : p3At l = true ↔ specOneOf l := by
  constructor
  · intro h
    rw [p3At] at h
    split at h
    · exact absurd h (by simp)
    · rename_i r1 heq1
      split at h
      · exact absurd h (by simp)
      · rename_i r2 heq2
        obtain ⟨c, rrest, hsk2, hdig⟩ := (digitsStart_iff _).mp h
        have hl := (stripToken_eq_some _ _ _).mp heq1
        have hr1 := (stripToken_eq_some _ _ _).mp heq2
        obtain ⟨w1, hw1d, hw1⟩ := skipWs_decomp r1
        obtain ⟨w2, hw2d, hw2⟩ := skipWs_decomp r2
        refine ⟨w1, w2, [c], rrest, ?_, hw1, hw2, by simp, by simp [hdig]⟩
        rw [hl, hw1d, hr1, hw2d, hsk2]
        simp [List.append_assoc]
  · rintro ⟨w1, w2, d, suf, heq, hw1, hw2, hdne, hdall⟩
    obtain ⟨c, d', rfl⟩ : ∃ c d', d = c :: d' := by
      cases d with
      | nil => exact absurd rfl hdne
      | cons c d' => exact ⟨c, d', rfl⟩
    have hnorm : l = '1' :: (w1 ++ 'o' :: 'f' :: (w2 ++ c :: (d' ++ suf))) := by
      rw [heq]
      simp [ofChars, List.append_assoc]
    rw [hnorm]
    exact p3At_intro w1 w2 c (d' ++ suf) hw1 hw2 (hdall c (by simp))

theorem p4At_intro (w1 w2 : List Char) (c : Char) (tail : List Char)
    (hw1 : WsRun w1) (hw2 : WsRun w2) (hc : isDigitB c = true) :
    p4At ('1' :: (w1 ++ '/' :: (w2 ++ c :: tail))) = true := by
  have e1 : stripToken ['1'] ('1' :: (w1 ++ '/' :: (w2 ++ c :: tail))) =
      some (w1 ++ '/' :: (w2 ++ c :: tail)) :=
    stripToken_append ['1'] _
  have e2 : skipWs (w1 ++ '/' :: (w2 ++ c :: tail)) = '/' :: (w2 ++ c :: tail) :=
    skipWs_ws_cons w1 '/' _ hw1 (by decide)
  have e3 : stripToken ['/'] ('/' :: (w2 ++ c :: tail)) = some (w2 ++ c :: tail) :=
    stripToken_append ['/'] _
  have e4 : skipWs (w2 ++ c :: tail) = c :: tail :=
    skipWs_ws_cons w2 c _ hw2 (not_ws_of_digit c hc)
  simp only [p4At, e1, e2, e3, e4, digitsStart]
  exact hc

theorem p4At_iff (l : List Char) : p4At l = true ↔ specOneSlash l := by
  constructor
  · intro h
    rw [p4At] at h
    split at h
    · exact absurd h (by simp)
    · rename_i r1 heq1
      split at h
      · exact absurd h (by simp)
      · rename_i r2 heq2
        obtain ⟨c, rrest, hsk2, hdig⟩ := (digitsStart_iff _).mp h
        have hl := (stripToken_eq_some _ _ _).mp heq1
        have hr1 := (stripToken_eq_some _ _ _).mp heq2
        obtain ⟨w1, hw1d, hw1⟩ := skipWs_decomp r1
        obtain ⟨w2, hw2d, hw2⟩ := skipWs_decomp r2
        refine ⟨w1, w2, [c], rrest, ?_, hw1, hw2, by simp, by simp [hdig]⟩
        rw [hl, hw1d, hr1, hw2d, hsk2]
        simp [List.append_assoc]
  · rintro ⟨w1, w2, d, suf, heq, hw1, hw2, hdne, hdall⟩
    obtain ⟨c, d', rfl⟩ : ∃ c d', d = c :: d' := by
      cases d with
      | nil => exact absurd rfl hdne
      | cons c d' => exact ⟨c, d', rfl⟩
    have hnorm : l = '1' :: (w1 ++ '/' :: (w2 ++ c :: (d' ++ suf))) := by
      rw [heq]
      simp [List.append_assoc]
    rw [hnorm]
    exact p4At_intro w1 w2 c (d' ++ suf) hw1 hw2 (hdall c (by simp))

theorem p5At_intro (w1 suf : List Char) (hw1 : WsRun w1)
    (hbound : suf = [] ∨ ∃ c suf2, suf = c :: suf2 ∧ isWordB c = false) :
    p5At (pageChars ++ (w1 ++ '1' :: suf)) = true := by
  have e1 : stripToken pageChars (pageChars ++ (w1 ++ '1' :: suf)) =
      some (w1 ++ '1' :: suf) :=
    stripToken_append pageChars _
  have e2 : skipWs (w1 ++ '1' :: suf) = '1' :: suf :=
    skipWs_ws_cons w1 '1' _ hw1 (by decide)
  have e3 : stripToken ['1'] ('1' :: suf) = some suf := stripToken_append ['1'] _
  simp only [p5At, e1, e2, e3]
  rcases hbound with rfl | ⟨c, suf2, rfl, hc⟩
  · rfl
  · simp [hc]

theorem p5At_iff (l : List Char) :
    p5At l = true ↔ ∃ w1 suf, l = pageChars ++ w1 ++ ['1'] ++ suf ∧ WsRun w1 ∧
      (suf = [] ∨ ∃ c suf2, suf = c :: suf2 ∧ isWordB c = false) := by
  constructor
  · intro h
    rw [p5At] at h
    split at h
    · exact absurd h (by simp)
    · rename_i r1 heq1
      split at h
      · exact absurd h (by simp)
      · rename_i rest heq2
        have hl := (stripToken_eq_some _ _ _).mp heq1
        have hr1 := (stripToken_eq_some _ _ _).mp heq2
        obtain ⟨w1, hw1d, hw1⟩ := skipWs_decomp r1
        refine ⟨w1, rest, ?_, hw1, ?_⟩
        · rw [hl, hw1d, hr1]
          simp [List.append_assoc]
        · cases rest with
          | nil => exact Or.inl rfl
          | cons c suf2 =>
            refine Or.inr ⟨c, suf2, rfl, ?_⟩
            simpa using h
  · rintro ⟨w1, suf, heq, hw1, hbound⟩
    have hnorm : l = pageChars ++ (w1 ++ '1' :: suf) := by
      rw [heq]
      simp [List.append_assoc]
    rw [hnorm]
    exact p5At_intro w1 suf hw1 hbound

theorem searchAnywhere_p1_iff (l : List Char) :
    searchAnywhere p1At l = true ↔ specPageOne l := by
  rw [searchAnywhere_iff]
  constructor
  · rintro ⟨pre, suf, rfl, h⟩
    obtain ⟨w1, w2, w3, d, suf', heq, hw1, hw2, hw3, hd⟩ := (p1At_iff suf).mp h
    refine ⟨pre, w1, w2, w3, d, suf', ?_, hw1, hw2, hw3, hd⟩
    rw [heq]
    simp [List.append_assoc]
  · rintro ⟨pre, w1, w2, w3, d, suf, heq, hw1, hw2, hw3, hd⟩
    refine ⟨pre, pageChars ++ w1 ++ ['1'] ++ w2 ++ ofChars ++ w3 ++ d ++ suf, ?_, ?_⟩
    · rw [heq]
      simp [List.append_assoc]
    · exact (p1At_iff _).mpr ⟨w1, w2, w3, d, suf, rfl, hw1, hw2, hw3, hd⟩

theorem searchAnywhere_p2_iff (l : List Char) :
    searchAnywhere p2At l = true ↔ specPageSlash l := by
  rw [searchAnywhere_iff]
  constructor
  · rintro ⟨pre, suf, rfl, h⟩
    obtain ⟨w1, w2, w3, d, suf', heq, hw1, hw2, hw3, hd⟩ := (p2At_iff suf).mp h
    refine ⟨pre, w1, w2, w3, d, suf', ?_, hw1, hw2, hw3, hd⟩
    rw [heq]
    simp [List.append_assoc]
  · rintro ⟨pre, w1, w2, w3, d, suf, heq, hw1, hw2, hw3, hd⟩
    refine ⟨pre, pageChars ++ w1 ++ ['1'] ++ w2 ++ ['/'] ++ w3 ++ d ++ suf, ?_, ?_⟩
    · rw [heq]
      simp [List.append_assoc]
    · exact (p2At_iff _).mpr ⟨w1, w2, w3, d, suf, rfl, hw1, hw2, hw3, hd⟩

/-- The word-boundary condition accumulated by the scan: the position is
the start of the text (then the `prev` flag decides) or the character
just before it is a non-word character. -/
def lastOk (prev : Option Char) (pre : List Char) : Prop :=
  (pre = [] ∧ nonWordBefore prev = true) ∨ ∃ c pre2, pre = pre2 ++ [c] ∧ isWordB c = false

theorem searchAtWordStart_iff (f : List Char → Bool) :
    ∀ (l : List Char) (prev : Option Char),
      searchAtWordStart f prev l = true ↔
        ∃ pre suf, l = pre ++ suf ∧ f suf = true ∧ lastOk prev pre := by
  intro l
  induction l with
  | nil =>
    intro prev
    simp only [searchAtWordStart, Bool.and_eq_true]
    constructor
    · rintro ⟨hnw, hf⟩
      exact ⟨[], [], rfl, hf, Or.inl ⟨rfl, hnw⟩⟩
    · rintro ⟨pre, suf, heq, hf, hlast⟩
      obtain ⟨rfl, rfl⟩ := List.append_eq_nil.mp heq.symm
      rcases hlast with ⟨_, hnw⟩ | ⟨c, pre2, hpre, _⟩
      · exact ⟨hnw, hf⟩
      · exact absurd hpre (by simp)
  | cons c rest ih =>
    intro prev
    simp only [searchAtWordStart, Bool.or_eq_true, Bool.and_eq_true, ih (some c)]
    constructor
    · rintro (⟨hnw, hf⟩ | ⟨pre, suf, rfl, hf, hlast⟩)
      · exact ⟨[], c :: rest, rfl, hf, Or.inl ⟨rfl, hnw⟩⟩
      · refine ⟨c :: pre, suf, rfl, hf, ?_⟩
        rcases hlast with ⟨rfl, hnw⟩ | ⟨b, pre2, rfl, hb⟩
        · exact Or.inr ⟨c, [], rfl, by simpa [nonWordBefore] using hnw⟩
        · exact Or.inr ⟨b, c :: pre2, rfl, hb⟩
    · rintro ⟨pre, suf, heq, hf, hlast⟩
      cases pre with
      | nil =>
        rw [List.nil_append] at heq
        rcases hlast with ⟨_, hnw⟩ | ⟨b, pre2, hpre, _⟩
        · exact Or.inl ⟨hnw, heq ▸ hf⟩
        · exact absurd hpre (by simp)
      | cons p pre' =>
        rw [List.cons_append] at heq
        injection heq with h1 h2
        subst h1
        refine Or.inr ⟨pre', suf, h2, hf, ?_⟩
        rcases hlast with ⟨habs, _⟩ | ⟨b, pre2, hpe, hb⟩
        · exact absurd habs (by simp)
        · cases pre2 with
          | nil =>
            simp only [List.nil_append] at hpe
            injection hpe with hcb hpre'
            subst hcb
            subst hpre'
            exact Or.inl ⟨rfl, by simpa [nonWordBefore] using hb⟩
          | cons q pre2' =>
            rw [List.cons_append] at hpe
            injection hpe with _ hp2
            exact Or.inr ⟨b, pre2', hp2, hb⟩

theorem searchBare_iff (l : List Char) :
    searchAtWordStart p5At none l = true ↔ specBarePageOne l := by
  rw [searchAtWordStart_iff]
  constructor
  · rintro ⟨pre, suf0, rfl, h, hlast⟩
    obtain ⟨w1, suf, heq, hw1, hbound⟩ := (p5At_iff suf0).mp h
    refine ⟨pre, w1, suf, ?_, hw1, ?_, hbound⟩
    · rw [heq]
      simp [List.append_assoc]
    · rcases hlast with ⟨rfl, _⟩ | ⟨c, pre2, hpe, hc⟩
      · exact Or.inl rfl
      · exact Or.inr ⟨c, pre2, hpe, hc⟩
  · rintro ⟨pre, w1, suf, heq, hw1, hpre, hbound⟩
    refine ⟨pre, pageChars ++ w1 ++ ['1'] ++ suf, ?_, ?_, ?_⟩
    · rw [heq]
      simp [List.append_assoc]
    · exact (p5At_iff _).mpr ⟨w1, suf, rfl, hw1, hbound⟩
    · rcases hpre with rfl | ⟨c, pre2, hpe, hc⟩
      · exact Or.inl ⟨rfl, rfl⟩
      · exact Or.inr ⟨c, pre2, hpe, hc⟩

/-- C7: in longlist mode a page is classified as starting a new document
if and only if its normalized text (whitespace runs collapsed to single
spaces, lowercased) matches one of the five boundary patterns:
`page 1 of <digits>`, `page 1 / <digits>` (slash form),
`1 of <digits>` anchored at the start, `1/<digits>` anchored at the
start, or the bare word sequence `page 1` anywhere in the text. -/
theorem boundary_classifier_iff (s : String) :
    isNewCV s = true ↔
      specPageOne (normalize s).data ∨ specPageSlash (normalize s).data ∨
      specOneOf (normalize s).data ∨ specOneSlash (normalize s).data ∨
      specBarePageOne (normalize s).data := by
  rw [isNewCV]
  simp only [Bool.or_eq_true]
  rw [searchAnywhere_p1_iff, searchAnywhere_p2_iff, p3At_iff, p4At_iff, searchBare_iff]
  tauto

end LL2LO
